import Mathlib

/-!
Verification development for `apply_agentkit.py` (QingGo/sliceproofkit).

The script is a manifest-driven template installer.  We shallowly embed the
functions the specification talks about:

* text content is modelled as `List Char` (the script reads and writes UTF-8
  text; `splitlines` models Python `str.splitlines()` restricted to the
  newline character, which is the only line separator the script itself ever
  writes);
* the filesystem is modelled as a flat association list from paths (component
  lists) to file states, plus a list of directory paths;
* fallible operations return `Except AppErr`;
* printed progress lines are modelled by a `LogEntry` list.

Each definition is translated from the source file `apply_agentkit.py`; line
numbers in the doc comments refer to it.
-/

namespace AgentKit

/-- Python `str.splitlines()` for text whose only line separator is `'\n'`
(source line 158/160 reads UTF-8 text and splits it).  Note Python semantics:
a trailing newline does not produce a trailing empty line, and the empty
string has no lines. -/
def splitlines : List Char → List (List Char)
  | [] => []
  | c :: cs =>
    if c = '\n' then [] :: splitlines cs
    else
      match splitlines cs with
      | [] => [[c]]
      | l :: ls => (c :: l) :: ls

/-- `"\n".join lines` (source line 174). -/
def joinNL : List (List Char) → List Char
  | [] => []
  | [l] => l
  | l :: l' :: ls => l ++ '\n' :: joinNL (l' :: ls)

/-- Python truthiness of `line.strip()` (source line 165): a line is blank
iff all of its characters are whitespace. -/
def isBlank (l : List Char) : Bool := l.all (fun c => c.isWhitespace)

/-- The content transformation of `merge_gitignore` (source lines 154-176).
`dst = none` models "the destination file does not exist"; the result is the
new destination state (`none` = still not created).  The `force` flag is a
parameter of the Python function but is deliberately ignored by it
(source line 170). -/
def merge_gitignore (snippet : List Char) (dst : Option (List Char))
    (_force : Bool) : Option (List Char) :=
  let snip := splitlines snippet
  let existing := (dst.map splitlines).getD []
  let toAdd := snip.filter (fun line => !isBlank line && !existing.contains line)
  if toAdd = [] then dst
  else
    some ((dst.getD []) ++
      (if existing ≠ [] ∧ existing.getLast? ≠ some [] then ['\n'] else []) ++
      joinNL toAdd ++ ['\n'])

/-- Python `\s` for the ASCII range (source line 43: the `PLACEHOLDER`
regular expression). -/
def pyIsSpace (c : Char) : Bool :=
  c = ' ' || c = '\t' || c = '\n' || c = '\r' || c = '\x0b' || c = '\x0c'

/-- The character class `[A-Z0-9_]` of the `PLACEHOLDER` pattern
(source line 43). -/
def isNameChar (c : Char) : Bool :=
  ('A' ≤ c && c ≤ 'Z') || ('0' ≤ c && c ≤ '9') || c = '_'

/-- Attempt to match the `PLACEHOLDER` pattern at the start of `s`:
two braces, optional whitespace, a non-empty run of name characters
(the capture group), optional whitespace, two closing braces.  Returns
`(captured name, whole matched text, remainder)`.  Because the three
character classes involved are pairwise disjoint, the greedy maximal-munch
below is exactly the regex's behaviour (no backtracking can succeed where
it fails). -/
def matchPlaceholder (s : List Char) : Option (List Char × List Char × List Char) :=
  match s with
  | c1 :: c2 :: rest =>
    if c1 = '{' ∧ c2 = '{' then
      let ws1 := rest.takeWhile pyIsSpace
      let r1 := rest.dropWhile pyIsSpace
      let name := r1.takeWhile isNameChar
      let r2 := r1.dropWhile isNameChar
      if name = [] then none
      else
        let ws2 := r2.takeWhile pyIsSpace
        let r3 := r2.dropWhile pyIsSpace
        match r3 with
        | d1 :: d2 :: tail =>
          if d1 = '}' ∧ d2 = '}' then
            some (name, '{' :: '{' :: (ws1 ++ name ++ ws2 ++ ['}', '}']), tail)
          else none
        | _ => none
    else none
  | _ => none

theorem matchPlaceholder_rest_lt {s n w t : List Char}
    (h : matchPlaceholder s = some (n, w, t)) : t.length < s.length := by
  match s with
  | [] => simp [matchPlaceholder] at h
  | [c] => simp [matchPlaceholder] at h
  | c1 :: c2 :: rest =>
    simp only [matchPlaceholder] at h
    have h3 : (rest.dropWhile pyIsSpace |>.dropWhile isNameChar
        |>.dropWhile pyIsSpace).length ≤ rest.length :=
      le_trans ((List.dropWhile_sublist _).length_le)
        (le_trans ((List.dropWhile_sublist _).length_le)
          ((List.dropWhile_sublist _).length_le))
    split at h
    · split at h
      · exact absurd h (by simp)
      · split at h
        · rename_i heq
          split at h
          · simp only [Option.some.injEq, Prod.mk.injEq] at h
            obtain ⟨-, -, ht⟩ := h
            subst ht
            rw [heq] at h3
            simp only [List.length_cons] at h3 ⊢
            omega
          · exact absurd h (by simp)
        · exact absurd h (by simp)
    · exact absurd h (by simp)

/-- `render_text` (source lines 93-97): `re.sub` with the `PLACEHOLDER`
pattern and a replacement function returning `variables.get(key, m.group(0))`.
`re.sub` scans left to right: at each position it tries to match; on success
it emits the replacement and resumes after the match, otherwise it emits the
character and advances by one.  The Python `dict` of variables is modelled
as an association list with distinct keys (first binding wins, like
`dict.get`). -/
def render_text (vars : List (List Char × List Char)) (s : List Char) :
    List Char :=
  match h : matchPlaceholder s with
  | some (name, whole, rest) =>
    ((vars.lookup name).getD whole) ++ render_text vars rest
  | none =>
    match s with
    | [] => []
    | c :: cs => c :: render_text vars cs
termination_by s.length
decreasing_by
  · exact matchPlaceholder_rest_lt h
  · simp

/-- Resolved absolute paths, as component lists (`Path.resolve()` output;
symlink resolution and `..` normalisation are outside the model). -/
abbrev FilePath' := List String

/-- The bytes of a file.  `text s` is content that decodes as UTF-8 to `s`;
`binary b` is content that raises `UnicodeDecodeError` when read as text. -/
inductive FileBytes where
  | text (s : List Char)
  | binary (b : List Nat)
deriving DecidableEq

/-- A file on disk: its bytes plus the metadata `shutil.copystat`/`copy2`
propagate (modification time, permission bits, ...), abstracted into one
token. -/
structure FSFile where
  data : FileBytes
  meta : Nat
deriving DecidableEq

/-- The filesystem: a flat association list of files (unique keys) plus the
set of directory paths.  Directory creation (`mkdir`, `ensure_parent`) has no
observable effect in this flat model and is not tracked. -/
structure FS where
  files : List (FilePath' × FSFile)
  dirs : List FilePath'
deriving DecidableEq

def FS.lookupFile (fs : FS) (p : FilePath') : Option FSFile := fs.files.lookup p

def FS.isDir (fs : FS) (p : FilePath') : Bool := fs.dirs.contains p

/-- Python `Path.exists()`: true for files and directories. -/
def FS.existsPath (fs : FS) (p : FilePath') : Bool :=
  fs.isDir p || (fs.lookupFile p).isSome

def setFileIn : List (FilePath' × FSFile) → FilePath' → FSFile →
    List (FilePath' × FSFile)
  | [], p, f => [(p, f)]
  | (q, g) :: rest, p, f =>
    if q = p then (p, f) :: rest else (q, g) :: setFileIn rest p f

/-- Create or truncate-and-write the file at `p`. -/
def FS.writeFile (fs : FS) (p : FilePath') (f : FSFile) : FS :=
  ⟨setFileIn fs.files p f, fs.dirs⟩

/-- Runtime errors of the script (the exceptions it raises or propagates). -/
inductive AppErr where
  | unknownAgents (unknown : List String) (available : List String)
  | keyError (agent : String)
  | missingSnippet (src : FilePath')
  | missingDir (src : FilePath')
  | missingFile (src : FilePath')
  | sourceDirNotFound (src : FilePath')
  | fileNotFound (p : FilePath')
  | isADirectory (p : FilePath')
  | unicodeDecodeError
deriving DecidableEq

instance {ε α : Type _} [DecidableEq ε] [DecidableEq α] :
    DecidableEq (Except ε α) := fun a b =>
  match a, b with
  | .error e1, .error e2 =>
    if h : e1 = e2 then .isTrue (h ▸ rfl)
    else .isFalse (fun hc => h (Except.error.inj hc))
  | .error _, .ok _ => .isFalse (fun hc => Except.noConfusion hc)
  | .ok _, .error _ => .isFalse (fun hc => Except.noConfusion hc)
  | .ok a1, .ok a2 =>
    if h : a1 = a2 then .isTrue (h ▸ rfl)
    else .isFalse (fun hc => h (Except.ok.inj hc))

/-- The progress lines printed to stdout. -/
inductive LogEntry where
  | skipped (dst : FilePath')
  | rendered (dst : FilePath')
  | copied (dst : FilePath')
  | mergeNoChange
  | merged (dst : FilePath') (added : Nat)
  | optionalMissing (src : FilePath')
deriving DecidableEq

/-- `Path.read_text(encoding="utf-8")` at path `p`. -/
def FS.readTextAt (fs : FS) (p : FilePath') : Except AppErr (List Char) :=
  if fs.isDir p then .error (.isADirectory p)
  else
    match fs.lookupFile p with
    | some f =>
      match f.data with
      | .text s => .ok s
      | .binary _ => .error .unicodeDecodeError
    | none => .error (.fileNotFound p)

/-- `Path.suffix` of a file name (pathlib: the last dot, provided it is
neither the first nor the last character of the name). -/
def suffixChars (name : List Char) : List Char :=
  let afterRev := name.reverse.takeWhile (fun c => !(c = '.'))
  if afterRev.length = name.length then []
  else if name.length - afterRev.length - 1 = 0 then []
  else if afterRev.length = 0 then []
  else '.' :: afterRev.reverse

/-- `is_renderable` (source lines 100-101): the path's suffix, lowercased,
is among the lowercased render extensions. -/
def is_renderable (p : FilePath') (render_exts : List String) : Bool :=
  (render_exts.map (fun e => String.mk (e.data.map Char.toLower))).contains
    (String.mk ((suffixChars ((p.getLastD "").data)).map Char.toLower))

/-- `copy_file` (source lines 108-126).  `ensure_parent` is a directory
operation with no effect in the flat model.  If the destination exists and
`force` is false the file is skipped.  Otherwise, for a renderable file the
text is read (falling back to a plain `shutil.copy2` on
`UnicodeDecodeError`), rendered and written, and the source metadata is
propagated (`shutil.copystat`); non-renderable files go through
`shutil.copy2` (bytes plus metadata). -/
def copy_file (fs : FS) (src dst : FilePath') (force render : Bool)
    (vars : List (List Char × List Char)) : Except AppErr (FS × List LogEntry) :=
  if fs.existsPath dst && !force then .ok (fs, [.skipped dst])
  else if render then
    if fs.isDir src then .error (.isADirectory src)
    else
      match fs.lookupFile src with
      | some f =>
        match f.data with
        | .text s =>
          .ok (fs.writeFile dst ⟨.text (render_text vars s), f.meta⟩,
            [.rendered dst])
        | .binary b =>
          .ok (fs.writeFile dst ⟨.binary b, f.meta⟩, [.copied dst])
      | none => .error (.fileNotFound src)
  else
    if fs.isDir src then .error (.isADirectory src)
    else
      match fs.lookupFile src with
      | some f => .ok (fs.writeFile dst f, [.copied dst])
      | none => .error (.fileNotFound src)

/-- Strict code-point lexicographic order on character lists (how Python
compares strings). -/
def lexCharsLt : List Char → List Char → Bool
  | [], [] => false
  | [], _ :: _ => true
  | _ :: _, [] => false
  | a :: as, b :: bs => if a = b then lexCharsLt as bs else decide (a < b)

/-- Non-strict code-point lexicographic order on character lists. -/
def lexCharsLe : List Char → List Char → Bool
  | [], _ => true
  | _ :: _, [] => false
  | a :: as, b :: bs => if a = b then lexCharsLe as bs else decide (a < b)

/-- Python string comparison (`sorted` on names): code-point lexicographic. -/
def pyStrLe (a b : String) : Bool := lexCharsLe a.data b.data

/-- Lexicographic order on component lists (a proper prefix sorts first),
using the code-point order on strings, as Python's `sort()` does. -/
def lexLe : List String → List String → Bool
  | [], _ => true
  | _ :: _, [] => false
  | a :: as, b :: bs => if a = b then lexLe as bs else lexCharsLt a.data b.data

/-- The order in which `os.walk` with sorted `dirs`/`files` (source lines
133-151) yields the files of a tree: all files of a directory (sorted by
name) come before the files of its subdirectories, and sibling directories
are visited in sorted order. -/
def walkLe (x y : FilePath') : Bool :=
  if x.dropLast = y.dropLast then pyStrLe (x.getLastD "") (y.getLastD "")
  else lexLe x.dropLast y.dropLast

/-- The files strictly below directory `d`. -/
def FS.filesUnder (fs : FS) (d : FilePath') : List FilePath' :=
  (fs.files.map Prod.fst).filter
    (fun p => decide (d.length < p.length) && d.isPrefixOf p)

def copyTreeGo (srcDir dstDir : FilePath') (force : Bool)
    (render_exts : List String) (vars : List (List Char × List Char)) :
    FS → List FilePath' → Except AppErr (FS × List LogEntry)
  | fs, [] => .ok (fs, [])
  | fs, p :: rest => do
    let (fs1, lg1) ← copy_file fs p (dstDir ++ p.drop srcDir.length) force
      (is_renderable p render_exts) vars
    let (fs2, lg2) ← copyTreeGo srcDir dstDir force render_exts vars fs1 rest
    .ok (fs2, lg1 ++ lg2)

/-- `copy_tree` (source lines 129-151): check the source directory exists,
then copy every file below it to the mirrored path under `dstDir`, in
deterministic walk order.  Intermediate `mkdir` calls have no effect in the
flat model. -/
def copy_tree (fs : FS) (srcDir dstDir : FilePath') (force : Bool)
    (render_exts : List String) (vars : List (List Char × List Char)) :
    Except AppErr (FS × List LogEntry) :=
  if !fs.existsPath srcDir then .error (.sourceDirNotFound srcDir)
  else
    copyTreeGo srcDir dstDir force render_exts vars fs
      ((fs.filesUnder srcDir).insertionSort (fun a b => walkLe a b = true))

/-- `merge_gitignore` as a filesystem action (source lines 154-176): read the
snippet, read the destination if it exists, and append the missing lines
(the content transformation is `merge_gitignore` above).  The appended file
keeps its previous metadata token; a freshly created one gets `0`. -/
def merge_gitignore_fs (fs : FS) (srcP dstP : FilePath') (force : Bool) :
    Except AppErr (FS × List LogEntry) := do
  let snip ← fs.readTextAt srcP
  let dstC ← if fs.existsPath dstP then (fs.readTextAt dstP).map some
    else .ok none
  let existing := (dstC.map splitlines).getD []
  let toAdd := (splitlines snip).filter
    (fun line => !isBlank line && !existing.contains line)
  if toAdd = [] then .ok (fs, [.mergeNoChange])
  else
    match merge_gitignore snip dstC force with
    | some newContent =>
      let meta := ((fs.lookupFile dstP).map FSFile.meta).getD 0
      .ok (fs.writeFile dstP ⟨.text newContent, meta⟩,
        [.merged dstP toAdd.length])
    | none => .ok (fs, [.mergeNoChange])

/-- One planned copy operation (the `CopyItem` dataclass, source lines
49-54), with already-resolved paths. -/
structure CopyItem where
  src : FilePath'
  dst : FilePath'
  mode : String := "copy"
  optional : Bool := false
deriving DecidableEq

/-- `apply_plan` (source lines 246-282): execute the items in order.
An item whose `mode` is `"merge_gitignore"` merges; every other mode copies
(a directory source via `copy_tree`, otherwise a single file).  A missing
source is skipped with a notice when the item is optional and aborts the run
otherwise.  (The `exists` test inside the directory branch of the source is
unreachable: `is_dir()` implies `exists()`.) -/
def apply_plan (force : Bool) (render_exts : List String)
    (vars : List (List Char × List Char)) :
    FS → List CopyItem → Except AppErr (FS × List LogEntry)
  | fs, [] => .ok (fs, [])
  | fs, item :: rest =>
    if item.mode = "merge_gitignore" then
      if !fs.existsPath item.src then
        if item.optional then
          (apply_plan force render_exts vars fs rest).map
            (fun r => (r.1, .optionalMissing item.src :: r.2))
        else .error (.missingSnippet item.src)
      else do
        let (fs1, lg1) ← merge_gitignore_fs fs item.src item.dst force
        let (fs2, lg2) ← apply_plan force render_exts vars fs1 rest
        .ok (fs2, lg1 ++ lg2)
    else
      if fs.isDir item.src then
        if !fs.existsPath item.src then
          if item.optional then
            (apply_plan force render_exts vars fs rest).map
              (fun r => (r.1, .optionalMissing item.src :: r.2))
          else .error (.missingDir item.src)
        else do
          let (fs1, lg1) ← copy_tree fs item.src item.dst force render_exts vars
          let (fs2, lg2) ← apply_plan force render_exts vars fs1 rest
          .ok (fs2, lg1 ++ lg2)
      else
        if !fs.existsPath item.src then
          if item.optional then
            (apply_plan force render_exts vars fs rest).map
              (fun r => (r.1, .optionalMissing item.src :: r.2))
          else .error (.missingFile item.src)
        else do
          let (fs1, lg1) ← copy_file fs item.src item.dst force
            (is_renderable item.src render_exts) vars
          let (fs2, lg2) ← apply_plan force render_exts vars fs1 rest
          .ok (fs2, lg1 ++ lg2)

/-- A raw manifest copy entry (`{src, dst, mode?, optional?}`, schema of
spec section 6).  The `.get` defaults of `parse_copy_item` (source lines
230-233) are the field defaults here; the model represents well-typed
manifests, so the `isinstance` checks of the source cannot fire. -/
structure RawItem where
  src : String
  dst : String
  mode : String := "copy"
  optional : Bool := false
deriving DecidableEq

/-- One agent's block in the manifest; `copy` defaults to `[]`
(`agent_block.get("copy", [])`, source line 217). -/
structure AgentBlock where
  copy : List RawItem := []
deriving DecidableEq

/-- The manifest (well-typed): render extensions, the `common.copy` list
(source lines 206-207, `common.get("copy", [])`), and the `agents` mapping.
A Python `dict` is modelled as an association list in insertion order with
unique keys (first binding wins on lookup). -/
structure Manifest where
  render_extensions : List String := []
  common_copy : List RawItem := []
  agents : List (String × AgentBlock) := []

/-- Split a character list at every `'/'` (the semantics of
`String.splitOn "/"`, written structurally). -/
def splitSlash : List Char → List (List Char)
  | [] => [[]]
  | c :: cs =>
    if c = '/' then [] :: splitSlash cs
    else
      match splitSlash cs with
      | [] => [[c]]
      | l :: ls => (c :: l) :: ls

/-- `(root / rel).resolve()` restricted to plain relative `rel` paths:
append the slash-separated components. -/
def resolvePath (root : FilePath') (rel : String) : FilePath' :=
  root ++ (splitSlash rel.data).map String.mk

/-- `parse_copy_item` (source lines 226-243) on a well-typed entry. -/
def parse_copy_item (kit_root dest_root : FilePath') (it : RawItem) : CopyItem :=
  { src := resolvePath kit_root it.src
    dst := resolvePath dest_root it.dst
    mode := it.mode
    optional := it.optional }

/-- `sorted(list(agents_map.keys()))` (source line 193), sorting by
Python's code-point lexicographic string order (proved below to coincide
with `≤` on `String`). -/
def availableAgents (m : Manifest) : List String :=
  (m.agents.map Prod.fst).insertionSort (fun a b => pyStrLe a b = true)

/-- The agent loop of `build_copy_plan` (source lines 215-221): for each
chosen agent in order, append its copy entries in order; `agents_map[agent]`
raises `KeyError` if the agent is absent. -/
def agentItems (kit_root dest_root : FilePath')
    (agents : List (String × AgentBlock)) :
    List String → Except AppErr (List CopyItem)
  | [] => .ok []
  | a :: rest =>
    match agents.lookup a with
    | none => .error (.keyError a)
    | some blk =>
      (agentItems kit_root dest_root agents rest).map
        (fun tail => blk.copy.map (parse_copy_item kit_root dest_root) ++ tail)

/-- `build_copy_plan` (source lines 179-223): resolve the selection (the
`["all"]` sentinel means every available agent in sorted order; an explicit
list is kept in caller order after checking every name is known), then build
the item list: the `common.copy` entries first, then each chosen agent's
entries. -/
def build_copy_plan (kit_root dest_root : FilePath') (m : Manifest)
    (agents_selected : List String) :
    Except AppErr (List CopyItem × List String) :=
  let available := availableAgents m
  let chosenE : Except AppErr (List String) :=
    if agents_selected = ["all"] then .ok available
    else
      let unknown := agents_selected.filter
        (fun a => !(m.agents.map Prod.fst).contains a)
      if unknown = [] then .ok agents_selected
      else .error (.unknownAgents unknown available)
  match chosenE with
  | .error e => .error e
  | .ok chosen =>
    (agentItems kit_root dest_root m.agents chosen).map
      (fun ai => (m.common_copy.map (parse_copy_item kit_root dest_root) ++ ai,
        available))

/-! ### Line-splitting lemmas -/

theorem splitlines_nil : splitlines [] = [] := rfl

theorem splitlines_cons_newline (cs : List Char) :
    splitlines ('\n' :: cs) = [] :: splitlines cs := by
  simp [splitlines]

theorem splitlines_cons_of_ne {c : Char} (cs : List Char) (h : c ≠ '\n') :
    splitlines (c :: cs) =
      match splitlines cs with
      | [] => [[c]]
      | l :: ls => (c :: l) :: ls := by
  simp [splitlines, h]

theorem splitlines_ne_nil : ∀ {s : List Char}, s ≠ [] → splitlines s ≠ []
  | c :: cs, _ => by
    by_cases hc : c = '\n'
    · subst hc; simp [splitlines_cons_newline]
    · rw [splitlines_cons_of_ne cs hc]
      cases splitlines cs <;> simp

theorem splitlines_append_newline (a b : List Char) :
    splitlines (a ++ '\n' :: b) = splitlines (a ++ ['\n']) ++ splitlines b := by
  induction a with
  | nil => simp [splitlines_cons_newline, splitlines_nil]
  | cons c a ih =>
    by_cases hc : c = '\n'
    · subst hc
      simp only [List.cons_append, splitlines_cons_newline, ih, List.cons_append]
    · obtain ⟨h0, t0, heq⟩ :=
        List.exists_cons_of_ne_nil (splitlines_ne_nil (s := a ++ ['\n']) (by simp))
      simp only [List.cons_append]
      rw [splitlines_cons_of_ne _ hc, splitlines_cons_of_ne _ hc, ih, heq]
      simp

theorem splitlines_line (l : List Char) (h : '\n' ∉ l) :
    splitlines (l ++ ['\n']) = [l] := by
  induction l with
  | nil => simp [splitlines_cons_newline, splitlines_nil]
  | cons c l ih =>
    have hc : c ≠ '\n' := fun e => h (e ▸ List.mem_cons_self c l)
    simp only [List.cons_append]
    rw [splitlines_cons_of_ne _ hc, ih (fun hm => h (List.mem_cons_of_mem _ hm))]

theorem no_newline_of_mem_splitlines :
    ∀ {s l : List Char}, l ∈ splitlines s → '\n' ∉ l := by
  intro s
  induction s with
  | nil => simp [splitlines_nil]
  | cons c cs ih =>
    intro l hl
    by_cases hc : c = '\n'
    · subst hc
      rw [splitlines_cons_newline] at hl
      rcases List.mem_cons.mp hl with rfl | hl
      · simp
      · exact ih hl
    · rw [splitlines_cons_of_ne _ hc] at hl
      cases hsc : splitlines cs with
      | nil =>
        rw [hsc] at hl
        simp only [List.mem_singleton] at hl
        subst hl
        simp [hc, Ne.symm hc]
      | cons h0 t0 =>
        rw [hsc] at hl
        rcases List.mem_cons.mp hl with rfl | hl
        · intro hmem
          rcases List.mem_cons.mp hmem with h' | hmem
          · exact hc h'.symm
          · exact ih (hsc ▸ List.mem_cons_self h0 t0) hmem
        · exact ih (hsc ▸ List.mem_cons_of_mem h0 hl)

theorem splitlines_joinNL :
    ∀ (L : List (List Char)), L ≠ [] → (∀ l ∈ L, '\n' ∉ l) →
      splitlines (joinNL L ++ ['\n']) = L
  | [l], _, h => by
    rw [joinNL]
    exact splitlines_line l (h l (by simp))
  | l :: l' :: ls, _, h => by
    have ih := splitlines_joinNL (l' :: ls) (by simp)
      (fun x hx => h x (List.mem_cons_of_mem _ hx))
    rw [joinNL]
    have harr : (l ++ '\n' :: joinNL (l' :: ls)) ++ ['\n'] =
        l ++ '\n' :: (joinNL (l' :: ls) ++ ['\n']) := by simp
    rw [harr, splitlines_append_newline, splitlines_line l (h l (by simp)), ih]
    rfl

theorem splitlines_append_nl_of_last_ne :
    ∀ (s : List Char), s ≠ [] → s.getLast? ≠ some '\n' →
      splitlines (s ++ ['\n']) = splitlines s
  | [c], _, hl => by
    have hc : c ≠ '\n' := by simpa using hl
    simp only [List.cons_append, List.nil_append]
    rw [splitlines_cons_of_ne _ hc, splitlines_cons_of_ne _ hc]
    simp [splitlines_cons_newline, splitlines_nil]
  | c :: c2 :: cs2, _, hl => by
    have ih := splitlines_append_nl_of_last_ne (c2 :: cs2) (by simp)
      (by rwa [List.getLast?_cons_cons] at hl)
    simp only [List.cons_append] at ih
    by_cases hc : c = '\n'
    · subst hc
      simp only [List.cons_append, splitlines_cons_newline, ih]
    · simp only [List.cons_append]
      rw [splitlines_cons_of_ne _ hc, splitlines_cons_of_ne _ hc, ih]

theorem splitlines_getLast_ne_nil :
    ∀ (s : List Char), s ≠ [] → s.getLast? ≠ some '\n' →
      (splitlines s).getLast? ≠ some []
  | [c], _, hl => by
    have hc : c ≠ '\n' := by simpa using hl
    rw [splitlines_cons_of_ne _ hc]
    simp [splitlines_nil]
  | c :: c2 :: cs2, _, hl => by
    have hl2 : (c2 :: cs2).getLast? ≠ some '\n' := by
      rwa [List.getLast?_cons_cons] at hl
    have ih := splitlines_getLast_ne_nil (c2 :: cs2) (by simp) hl2
    have hne := splitlines_ne_nil (s := c2 :: cs2) (by simp)
    obtain ⟨h0, t0, heq⟩ := List.exists_cons_of_ne_nil hne
    by_cases hc : c = '\n'
    · subst hc
      rw [splitlines_cons_newline, heq]
      rw [heq] at ih
      rwa [List.getLast?_cons_cons]
    · rw [splitlines_cons_of_ne _ hc, heq]
      cases t0 with
      | nil => simp
      | cons u us =>
        rw [List.getLast?_cons_cons]
        rw [heq] at ih
        rwa [List.getLast?_cons_cons] at ih

/-! ### Merge lemmas -/

/-- The `existing` line list of `merge_gitignore` (source lines 159-162). -/
def existingLines (dst : Option (List Char)) : List (List Char) :=
  (dst.map splitlines).getD []

/-- The `to_add` line list of `merge_gitignore` (source line 165): snippet
lines that are non-blank and not already present among the existing lines,
in snippet order. -/
def missingLines (snippet : List Char) (dst : Option (List Char)) :
    List (List Char) :=
  (splitlines snippet).filter
    (fun line => !isBlank line && !(existingLines dst).contains line)

theorem merge_gitignore_eq (snippet : List Char) (dst : Option (List Char))
    (force : Bool) :
    merge_gitignore snippet dst force =
      if missingLines snippet dst = [] then dst
      else
        some ((dst.getD []) ++
          (if existingLines dst ≠ [] ∧ (existingLines dst).getLast? ≠ some []
            then ['\n'] else []) ++
          joinNL (missingLines snippet dst) ++ ['\n']) := rfl

/-- Decomposition of the merged content into lines: the existing lines, an
optional blank separator line, then exactly the missing lines. -/
theorem merge_gitignore_splitlines (snippet : List Char)
    (dst : Option (List Char)) (force : Bool)
    (h : missingLines snippet dst ≠ []) :
    ∃ out mid, merge_gitignore snippet dst force = some out ∧
      splitlines out = existingLines dst ++ mid ++ missingLines snippet dst ∧
      (mid = [] ∨ mid = [[]]) := by
  have hnl : ∀ l ∈ missingLines snippet dst, '\n' ∉ l := fun l hl =>
    no_newline_of_mem_splitlines (List.mem_of_mem_filter hl)
  have hJ : splitlines (joinNL (missingLines snippet dst) ++ ['\n']) =
      missingLines snippet dst := splitlines_joinNL _ h hnl
  rw [merge_gitignore_eq, if_neg h]
  cases dst with
  | none =>
    refine ⟨_, [], rfl, ?_, Or.inl rfl⟩
    have hex : existingLines none = [] := rfl
    rw [hex]
    simp only [ne_eq, not_true_eq_false, false_and, if_false]
    simpa using hJ
  | some old =>
    have hex : existingLines (some old) = splitlines old := rfl
    by_cases ho : old = []
    · subst ho
      refine ⟨_, [], rfl, ?_, Or.inl rfl⟩
      rw [hex]
      simp only [splitlines_nil, ne_eq, not_true_eq_false, false_and, if_false]
      simpa using hJ
    · set M := missingLines snippet (some old) with hM
      set J := joinNL M with hJdef
      by_cases hlast : old.getLast? = some '\n'
      · -- destination content ends with a newline
        have hg : old.getLast ho = '\n' := by
          have h' := List.getLast?_eq_getLast old ho
          rw [hlast] at h'
          exact (Option.some.inj h').symm
        have hdec : old.dropLast ++ ['\n'] = old := by
          conv_rhs => rw [← List.dropLast_append_getLast ho]
          rw [hg]
        by_cases hsep : existingLines (some old) ≠ [] ∧
            (existingLines (some old)).getLast? ≠ some []
        · refine ⟨_, [[]], rfl, ?_, Or.inr rfl⟩
          rw [if_pos hsep, hex, Option.getD_some]
          have h1 : old ++ ['\n'] ++ J ++ ['\n'] =
              old.dropLast ++ '\n' :: ('\n' :: (J ++ ['\n'])) := by
            conv_lhs => rw [← hdec]
            simp
          rw [h1, splitlines_append_newline, hdec, splitlines_cons_newline, hJ]
          simp
        · refine ⟨_, [], rfl, ?_, Or.inl rfl⟩
          rw [if_neg hsep, hex, Option.getD_some]
          have h1 : old ++ [] ++ J ++ ['\n'] =
              old.dropLast ++ '\n' :: (J ++ ['\n']) := by
            conv_lhs => rw [← hdec]
            simp
          rw [h1, splitlines_append_newline, hdec, hJ]
          simp
      · -- destination content does not end with a newline: the written
        -- `'\n'` completes the last existing line instead of adding one
        have hne : existingLines (some old) ≠ [] := hex ▸ splitlines_ne_nil ho
        have hlast2 : (existingLines (some old)).getLast? ≠ some [] :=
          hex ▸ splitlines_getLast_ne_nil old ho hlast
        rw [if_pos ⟨hne, hlast2⟩]
        refine ⟨_, [], rfl, ?_, Or.inl rfl⟩
        rw [hex, Option.getD_some]
        have h1 : old ++ ['\n'] ++ J ++ ['\n'] = old ++ '\n' :: (J ++ ['\n']) := by
          simp
        rw [h1, splitlines_append_newline,
          splitlines_append_nl_of_last_ne old ho hlast, hJ]
        simp

theorem contains_iff_mem {α : Type _} [BEq α] [LawfulBEq α] {l : List α}
    {a : α} : l.contains a = true ↔ a ∈ l := by
  simp [List.contains, List.elem_iff]

theorem mem_missingLines {snippet : List Char} {dst : Option (List Char)}
    {l : List Char} :
    l ∈ missingLines snippet dst ↔
      l ∈ splitlines snippet ∧ isBlank l = false ∧ l ∉ existingLines dst := by
  unfold missingLines
  rw [List.mem_filter]
  constructor
  · rintro ⟨h1, h2⟩
    simp only [Bool.and_eq_true, Bool.not_eq_true'] at h2
    refine ⟨h1, h2.1, fun hm => ?_⟩
    rw [← contains_iff_mem (l := existingLines dst)] at hm
    rw [h2.2] at hm
    exact Bool.false_ne_true hm
  · rintro ⟨h1, h2, h3⟩
    refine ⟨h1, ?_⟩
    simp only [Bool.and_eq_true, Bool.not_eq_true']
    refine ⟨h2, ?_⟩
    cases hc : (existingLines dst).contains l with
    | false => rfl
    | true => exact absurd (contains_iff_mem.mp hc) h3

/-- **C2**: `merge_gitignore` appends exactly the snippet lines that are
non-blank and not already present verbatim among the existing destination
lines, in snippet order; if that list is empty no write occurs; otherwise a
separating newline is written first exactly when the existing content's last
line is non-empty, followed by the missing lines joined by newlines with a
trailing newline; and the existing lines are preserved as a prefix of the
result (never reordered or removed). -/
theorem claim_C2_merge_gitignore_appends_missing (snippet : List Char)
    (dst : Option (List Char)) (force : Bool) :
    (merge_gitignore snippet dst force =
      if missingLines snippet dst = [] then dst
      else
        some ((dst.getD []) ++
          (if existingLines dst ≠ [] ∧ (existingLines dst).getLast? ≠ some []
            then ['\n'] else []) ++
          joinNL (missingLines snippet dst) ++ ['\n']))
    ∧ (∀ out, merge_gitignore snippet dst force = some out →
        existingLines dst <+: splitlines out) := by
  refine ⟨merge_gitignore_eq snippet dst force, ?_⟩
  intro out hout
  by_cases h : missingLines snippet dst = []
  · rw [merge_gitignore_eq, if_pos h] at hout
    subst hout
    exact List.prefix_refl _
  · obtain ⟨out', mid, hmeq, hsplit, -⟩ :=
      merge_gitignore_splitlines snippet dst force h
    rw [hmeq] at hout
    obtain rfl := Option.some.inj hout
    exact ⟨mid ++ missingLines snippet dst, by rw [hsplit]; simp⟩

theorem claim_C2_merge_gitignore_appends_missing_witness :
    existingLines (some ['a', '\n']) <+: splitlines ['a', '\n', '\n', 'x', '\n'] :=
  (claim_C2_merge_gitignore_appends_missing ['x', '\n'] (some ['a', '\n'])
    false).2 ['a', '\n', '\n', 'x', '\n'] (by decide)

/-- **C3**: gitignore merging is idempotent (a second merge of the same
snippet changes nothing), ignores the overwrite flag, and appends zero lines
whenever every non-blank snippet line is already present. -/
theorem claim_C3_merge_gitignore_idempotent (snippet : List Char)
    (dst : Option (List Char)) (f1 f2 : Bool) :
    (merge_gitignore snippet (merge_gitignore snippet dst f1) f2 =
      merge_gitignore snippet dst f1)
    ∧ merge_gitignore snippet dst f1 = merge_gitignore snippet dst f2
    ∧ ((∀ l ∈ splitlines snippet, isBlank l = false → l ∈ existingLines dst) →
        merge_gitignore snippet dst f1 = dst) := by
  refine ⟨?_, rfl, ?_⟩
  · by_cases h : missingLines snippet dst = []
    · have h1 : merge_gitignore snippet dst f1 = dst := by
        rw [merge_gitignore_eq, if_pos h]
      rw [h1, merge_gitignore_eq, if_pos h]
    · obtain ⟨out, mid, hmeq, hsplit, hmid⟩ :=
        merge_gitignore_splitlines snippet dst f1 h
      rw [hmeq]
      have hmiss2 : missingLines snippet (some out) = [] := by
        apply List.filter_eq_nil_iff.mpr
        intro a ha hp
        simp only [Bool.and_eq_true, Bool.not_eq_true'] at hp
        obtain ⟨hb, hc⟩ := hp
        have hmem : a ∈ splitlines out := by
          by_cases hex2 : a ∈ existingLines dst
          · rw [hsplit]
            exact List.mem_append_left _ (List.mem_append_left _ hex2)
          · have hin : a ∈ missingLines snippet dst :=
              mem_missingLines.mpr ⟨ha, hb, hex2⟩
            rw [hsplit]
            exact List.mem_append_right _ hin
        have : (existingLines (some out)).contains a = true :=
          contains_iff_mem.mpr hmem
        rw [this] at hc
        exact Bool.noConfusion hc
      rw [merge_gitignore_eq, if_pos hmiss2]
  · intro hsub
    have h : missingLines snippet dst = [] := by
      apply List.filter_eq_nil_iff.mpr
      intro a ha hp
      simp only [Bool.and_eq_true, Bool.not_eq_true'] at hp
      obtain ⟨hb, hc⟩ := hp
      have := contains_iff_mem.mpr (hsub a ha hb)
      rw [this] at hc
      exact Bool.noConfusion hc
    rw [merge_gitignore_eq, if_pos h]

theorem claim_C3_merge_gitignore_idempotent_witness :
    (merge_gitignore ['x', '\n'] (merge_gitignore ['x', '\n'] (some ['a']) true)
        false = merge_gitignore ['x', '\n'] (some ['a']) true)
    ∧ merge_gitignore ['y', '\n'] (some ['y', '\n']) true = some ['y', '\n'] :=
  ⟨(claim_C3_merge_gitignore_idempotent ['x', '\n'] (some ['a']) true false).1,
   (claim_C3_merge_gitignore_idempotent ['y', '\n'] (some ['y', '\n']) true
     false).2.2 (by decide)⟩

/-- **C10**: the snippet is not de-duplicated against itself — every
occurrence of a non-blank snippet line that is absent from the existing
destination lines is appended, so the line's multiplicity in the result is
its multiplicity in the snippet, and the destination can end up with
duplicate lines after a single merge. -/
theorem claim_C10_merge_gitignore_keeps_duplicates (snippet : List Char)
    (dst : Option (List Char)) (force : Bool) (l : List Char)
    (hb : isBlank l = false) (hne : l ∉ existingLines dst)
    (hl : l ∈ splitlines snippet) :
    ∃ out, merge_gitignore snippet dst force = some out ∧
      (splitlines out).count l = (splitlines snippet).count l := by
  have hmem : l ∈ missingLines snippet dst := mem_missingLines.mpr ⟨hl, hb, hne⟩
  have h : missingLines snippet dst ≠ [] := fun e => by
    rw [e] at hmem
    exact List.not_mem_nil l hmem
  obtain ⟨out, mid, hmeq, hsplit, hmid⟩ :=
    merge_gitignore_splitlines snippet dst force h
  refine ⟨out, hmeq, ?_⟩
  rw [hsplit, List.count_append, List.count_append]
  have hlne : l ≠ [] := by
    intro e
    rw [e] at hb
    exact Bool.noConfusion hb
  have c1 : (existingLines dst).count l = 0 := List.count_eq_zero.mpr hne
  have c2 : mid.count l = 0 := by
    rcases hmid with rfl | rfl
    · rfl
    · apply List.count_eq_zero.mpr
      intro hm
      rw [List.mem_singleton] at hm
      exact hlne hm
  have c3 : (missingLines snippet dst).count l = (splitlines snippet).count l := by
    unfold missingLines
    apply List.count_filter
    have hcf : (existingLines dst).contains l = false := by
      cases hcc : (existingLines dst).contains l with
      | false => rfl
      | true => exact absurd (contains_iff_mem.mp hcc) hne
    simp only [hb, hcf, Bool.not_false, Bool.and_self]
  rw [c1, c2, c3]
  omega

theorem claim_C10_merge_gitignore_keeps_duplicates_witness :
    isBlank ['x'] = false ∧ ['x'] ∉ existingLines none
    ∧ ['x'] ∈ splitlines ['x', '\n', 'x', '\n']
    ∧ (∃ out, merge_gitignore ['x', '\n', 'x', '\n'] none false = some out ∧
        (splitlines out).count ['x'] = (splitlines ['x', '\n', 'x', '\n']).count ['x'])
    ∧ (splitlines ['x', '\n', 'x', '\n']).count ['x'] = 2 :=
  ⟨by decide, by decide, by decide,
   claim_C10_merge_gitignore_keeps_duplicates ['x', '\n', 'x', '\n'] none false
     ['x'] (by decide) (by decide) (by decide), by decide⟩

/-! ### Copy-plan lemmas -/

/-- The copy list of agent `a` in the manifest (empty if absent); used to
state what the plan contains. -/
def agentCopyOf (m : Manifest) (a : String) : List RawItem :=
  ((m.agents.lookup a).map AgentBlock.copy).getD []

theorem lookup_isSome_of_mem_keys {agents : List (String × AgentBlock)}
    {a : String} (h : a ∈ agents.map Prod.fst) :
    ∃ b, agents.lookup a = some b := by
  induction agents with
  | nil => simp at h
  | cons kv rest ih =>
    obtain ⟨k, blk⟩ := kv
    simp only [List.map_cons, List.mem_cons] at h
    by_cases hk : a = k
    · subst hk
      exact ⟨blk, by simp [List.lookup]⟩
    · obtain h | h := h
      · exact absurd h hk
      · obtain ⟨b, hb⟩ := ih h
        refine ⟨b, ?_⟩
        have hbeq : (a == k) = false := by simpa using hk
        simp only [List.lookup, hbeq]
        exact hb

theorem agentItems_eq_ok (kit dest : FilePath')
    (agents : List (String × AgentBlock)) :
    ∀ (sel : List String), (∀ a ∈ sel, a ∈ agents.map Prod.fst) →
      agentItems kit dest agents sel = .ok (sel.flatMap (fun a =>
        (((agents.lookup a).map AgentBlock.copy).getD []).map
          (parse_copy_item kit dest)))
  | [], _ => rfl
  | a :: rest, h => by
    obtain ⟨b, hb⟩ := lookup_isSome_of_mem_keys (h a (List.mem_cons_self a rest))
    have ih := agentItems_eq_ok kit dest agents rest
      (fun x hx => h x (List.mem_cons_of_mem a hx))
    rw [agentItems, hb, ih]
    simp [Except.map, hb]

theorem lexCharsLe_iff : ∀ (xs ys : List Char),
    lexCharsLe xs ys = true ↔ ¬ List.lt ys xs
  | [], ys => by
    rw [lexCharsLe]
    exact iff_of_true rfl (fun h => nomatch h)
  | x :: xs, [] => by
    rw [lexCharsLe]
    exact iff_of_false (by simp) (fun hn => hn (List.lt.nil x xs))
  | x :: xs, y :: ys => by
    rw [lexCharsLe]
    by_cases hxy : x = y
    · subst hxy
      rw [if_pos rfl, lexCharsLe_iff xs ys]
      constructor
      · intro hn hlt
        cases hlt with
        | head _ _ h => exact lt_irrefl x h
        | tail _ _ h3 => exact hn h3
      · intro hn hlt
        exact hn (List.lt.tail (lt_irrefl x) (lt_irrefl x) hlt)
    · rw [if_neg hxy, decide_eq_true_iff]
      constructor
      · intro hlt hn
        cases hn with
        | head _ _ h => exact absurd hlt (lt_asymm h)
        | tail h1 h2 _ => exact h2 hlt
      · intro hn
        rcases lt_trichotomy x y with h | h | h
        · exact h
        · exact absurd h hxy
        · exact absurd (List.lt.head _ _ h) hn

theorem pyStrLe_iff_le (a b : String) : pyStrLe a b = true ↔ a ≤ b := by
  rw [String.le_iff_toList_le, ← not_lt]
  rw [pyStrLe, lexCharsLe_iff]
  exact not_congr (List.lt_iff_lex_lt _ _)

instance : IsTotal String (fun a b => pyStrLe a b = true) :=
  ⟨fun a b => by
    rcases le_total a b with h | h
    · exact Or.inl ((pyStrLe_iff_le a b).mpr h)
    · exact Or.inr ((pyStrLe_iff_le b a).mpr h)⟩

instance : IsTrans String (fun a b => pyStrLe a b = true) :=
  ⟨fun a b c hab hbc => (pyStrLe_iff_le a c).mpr
    (le_trans ((pyStrLe_iff_le a b).mp hab) ((pyStrLe_iff_le b c).mp hbc))⟩

/-- **C1**: `build_copy_plan` returns the common entries in declared order
followed by, for each chosen agent in selection order, that agent's entries
in declared order; the `["all"]` sentinel chooses every available agent in
lexicographically sorted name order, while an explicit selection of known
names is kept in caller order.  The available-agents list is sorted and is a
permutation of the manifest's agent names. -/
theorem claim_C1_build_copy_plan_order (kit dest : FilePath') (m : Manifest)
    (sel : List String) :
    ((availableAgents m).Sorted (· ≤ ·)
      ∧ (availableAgents m).Perm (m.agents.map Prod.fst))
    ∧ (sel = ["all"] →
        build_copy_plan kit dest m sel = .ok
          (m.common_copy.map (parse_copy_item kit dest) ++
            (availableAgents m).flatMap
              (fun a => (agentCopyOf m a).map (parse_copy_item kit dest)),
           availableAgents m))
    ∧ (sel ≠ ["all"] → (∀ a ∈ sel, a ∈ m.agents.map Prod.fst) →
        build_copy_plan kit dest m sel = .ok
          (m.common_copy.map (parse_copy_item kit dest) ++
            sel.flatMap
              (fun a => (agentCopyOf m a).map (parse_copy_item kit dest)),
           availableAgents m)) := by
  refine ⟨⟨List.Pairwise.imp (fun h => (pyStrLe_iff_le _ _).mp h)
    (List.sorted_insertionSort _ _), List.perm_insertionSort _ _⟩, ?_, ?_⟩
  · intro hsel
    subst hsel
    have hmem : ∀ a ∈ availableAgents m, a ∈ m.agents.map Prod.fst := by
      intro a ha
      exact (List.perm_insertionSort _ _).mem_iff.mp ha
    show Except.map
      (fun ai => (m.common_copy.map (parse_copy_item kit dest) ++ ai,
        availableAgents m))
      (agentItems kit dest m.agents (availableAgents m)) = _
    rw [agentItems_eq_ok kit dest m.agents (availableAgents m) hmem]
    rfl
  · intro hsel hknown
    have hunk : sel.filter (fun a => !(m.agents.map Prod.fst).contains a) = [] := by
      apply List.filter_eq_nil_iff.mpr
      intro a ha hp
      rw [Bool.not_eq_true'] at hp
      rw [contains_iff_mem.mpr (hknown a ha)] at hp
      exact Bool.noConfusion hp
    rw [build_copy_plan]
    simp only [if_neg hsel, hunk, if_true]
    show Except.map
      (fun ai => (m.common_copy.map (parse_copy_item kit dest) ++ ai,
        availableAgents m))
      (agentItems kit dest m.agents sel) = _
    rw [agentItems_eq_ok kit dest m.agents sel hknown]
    rfl

theorem claim_C1_build_copy_plan_order_witness :
    (["all"] : List String) = ["all"]
    ∧ build_copy_plan [] []
        { common_copy := [{ src := "c", dst := "c" }]
          agents := [("b", ⟨[{ src := "b1", dst := "b1" }]⟩),
                     ("a", ⟨[{ src := "a1", dst := "a1" }]⟩)] } ["all"] = .ok
        ([{ src := ["c"], dst := ["c"], mode := "copy", optional := false },
          { src := ["a1"], dst := ["a1"], mode := "copy", optional := false },
          { src := ["b1"], dst := ["b1"], mode := "copy", optional := false }],
         ["a", "b"])
    ∧ build_copy_plan [] []
        { common_copy := [{ src := "c", dst := "c" }]
          agents := [("b", ⟨[{ src := "b1", dst := "b1" }]⟩),
                     ("a", ⟨[{ src := "a1", dst := "a1" }]⟩)] } ["b", "a"] = .ok
        ([{ src := ["c"], dst := ["c"], mode := "copy", optional := false },
          { src := ["b1"], dst := ["b1"], mode := "copy", optional := false },
          { src := ["a1"], dst := ["a1"], mode := "copy", optional := false }],
         ["a", "b"]) := by
  refine ⟨rfl, ?_, ?_⟩
  · rw [(claim_C1_build_copy_plan_order [] []
      { common_copy := [{ src := "c", dst := "c" }]
        agents := [("b", ⟨[{ src := "b1", dst := "b1" }]⟩),
                   ("a", ⟨[{ src := "a1", dst := "a1" }]⟩)] } ["all"]).2.1 rfl]
    decide
  · rw [(claim_C1_build_copy_plan_order [] []
      { common_copy := [{ src := "c", dst := "c" }]
        agents := [("b", ⟨[{ src := "b1", dst := "b1" }]⟩),
                   ("a", ⟨[{ src := "a1", dst := "a1" }]⟩)] } ["b", "a"]).2.2
      (by decide) (by decide)]
    decide

/-- **C5**: an explicit (non-sentinel) selection containing names absent
from the manifest's agents mapping makes `build_copy_plan` fail with an
error carrying all the unknown names together and the sorted list of
available agent names; with no unknown names it succeeds. -/
theorem claim_C5_build_copy_plan_unknown_agents (kit dest : FilePath')
    (m : Manifest) (sel : List String) (hne : sel ≠ ["all"]) :
    (sel.filter (fun a => !(m.agents.map Prod.fst).contains a) ≠ [] →
      build_copy_plan kit dest m sel = .error (.unknownAgents
        (sel.filter (fun a => !(m.agents.map Prod.fst).contains a))
        (availableAgents m)))
    ∧ (sel.filter (fun a => !(m.agents.map Prod.fst).contains a) = [] →
      ∃ r, build_copy_plan kit dest m sel = .ok r) := by
  constructor
  · intro hunk
    rw [build_copy_plan]
    simp only [if_neg hne, if_neg hunk]
  · intro hunk
    have hknown : ∀ a ∈ sel, a ∈ m.agents.map Prod.fst := by
      intro a ha
      by_contra ha2
      have hmem : a ∈ sel.filter
          (fun a => !(m.agents.map Prod.fst).contains a) := by
        refine List.mem_filter.mpr ⟨ha, ?_⟩
        rw [Bool.not_eq_true']
        cases hc : (m.agents.map Prod.fst).contains a with
        | false => rfl
        | true => exact absurd (contains_iff_mem.mp hc) ha2
      rw [hunk] at hmem
      exact List.not_mem_nil a hmem
    refine ⟨(m.common_copy.map (parse_copy_item kit dest) ++
      sel.flatMap (fun a =>
        (((m.agents.lookup a).map AgentBlock.copy).getD []).map
          (parse_copy_item kit dest)), availableAgents m), ?_⟩
    rw [build_copy_plan]
    simp only [if_neg hne, hunk, if_true]
    show Except.map
      (fun ai => (m.common_copy.map (parse_copy_item kit dest) ++ ai,
        availableAgents m))
      (agentItems kit dest m.agents sel) = _
    rw [agentItems_eq_ok kit dest m.agents sel hknown]
    rfl

theorem claim_C5_build_copy_plan_unknown_agents_witness :
    (build_copy_plan [] []
      { common_copy := []
        agents := [("trae", ⟨[]⟩), ("anti", ⟨[]⟩)] } ["zzz", "trae", "yyy"] =
      .error (.unknownAgents ["zzz", "yyy"] ["anti", "trae"]))
    ∧ ∃ r, build_copy_plan [] []
      { common_copy := []
        agents := [("trae", ⟨[]⟩), ("anti", ⟨[]⟩)] } ["trae"] = .ok r := by
  constructor
  · rw [(claim_C5_build_copy_plan_unknown_agents [] []
      { common_copy := []
        agents := [("trae", ⟨[]⟩), ("anti", ⟨[]⟩)] } ["zzz", "trae", "yyy"]
      (by decide)).1 (by decide)]
    decide
  · exact (claim_C5_build_copy_plan_unknown_agents [] []
      { common_copy := []
        agents := [("trae", ⟨[]⟩), ("anti", ⟨[]⟩)] } ["trae"]
      (by decide)).2 (by decide)

/-- **C9**: calling `build_copy_plan` with an empty selection list succeeds
and returns exactly the `common.copy` entries together with the sorted
available agent names. -/
theorem claim_C9_build_copy_plan_empty_selection (kit dest : FilePath')
    (m : Manifest) :
    build_copy_plan kit dest m [] =
      .ok (m.common_copy.map (parse_copy_item kit dest), availableAgents m) := by
  rw [build_copy_plan]
  simp only [if_neg (show ([] : List String) ≠ ["all"] by simp),
    List.filter_nil, if_true]
  show Except.map
    (fun ai => (m.common_copy.map (parse_copy_item kit dest) ++ ai,
      availableAgents m))
    (agentItems kit dest m.agents []) = _
  rw [agentItems_eq_ok kit dest m.agents [] (by simp)]
  simp [Except.map]

/-! ### Executor claims -/

/-- **C7**: with the overwrite flag off, copying onto an existing
destination path is a skip: the filesystem is returned unchanged (so the
destination's content and metadata are untouched), no error is raised, and
a skip notice is logged. -/
theorem claim_C7_copy_file_skips_existing (fs : FS) (src dst : FilePath')
    (render : Bool) (vars : List (List Char × List Char))
    (h : fs.existsPath dst = true) :
    copy_file fs src dst false render vars = .ok (fs, [.skipped dst]) := by
  rw [copy_file]
  simp [h]

theorem claim_C7_copy_file_skips_existing_witness :
    FS.existsPath ⟨[(["d"], ⟨.text ['x'], 5⟩)], []⟩ ["d"] = true
    ∧ copy_file ⟨[(["d"], ⟨.text ['x'], 5⟩)], []⟩ ["s"] ["d"] false true [] =
      .ok (⟨[(["d"], ⟨.text ['x'], 5⟩)], []⟩, [.skipped ["d"]]) :=
  ⟨by decide, claim_C7_copy_file_skips_existing
    ⟨[(["d"], ⟨.text ['x'], 5⟩)], []⟩ ["s"] ["d"] true [] (by decide)⟩

/-- **C8**: a renderable source whose content is not valid text is copied
exactly as a raw copy would copy it — same resulting filesystem, bytes
byte-for-byte and metadata propagated — and no error is raised or logged
(the fallback logs an ordinary copy line). -/
theorem claim_C8_copy_file_binary_fallback (fs : FS) (src dst : FilePath')
    (force : Bool) (vars : List (List Char × List Char)) (b : List Nat)
    (md : Nat) (hd : fs.isDir src = false)
    (hs : fs.lookupFile src = some ⟨.binary b, md⟩) :
    (copy_file fs src dst force true vars =
      copy_file fs src dst force false vars)
    ∧ ((fs.existsPath dst && !force) = false →
        copy_file fs src dst force true vars =
          .ok (fs.writeFile dst ⟨.binary b, md⟩, [.copied dst])) := by
  have e1 : copy_file fs src dst force true vars =
      if fs.existsPath dst && !force then .ok (fs, [.skipped dst])
      else .ok (fs.writeFile dst ⟨.binary b, md⟩, [.copied dst]) := by
    rw [copy_file]
    by_cases h1 : (fs.existsPath dst && !force) = true
    · rw [if_pos h1, if_pos h1]
    · rw [if_neg h1, if_neg h1]
      simp [hd, hs]
  have e2 : copy_file fs src dst force false vars =
      if fs.existsPath dst && !force then .ok (fs, [.skipped dst])
      else .ok (fs.writeFile dst ⟨.binary b, md⟩, [.copied dst]) := by
    rw [copy_file]
    by_cases h1 : (fs.existsPath dst && !force) = true
    · rw [if_pos h1, if_pos h1]
    · rw [if_neg h1, if_neg h1]
      simp [hd, hs]
  refine ⟨e1.trans e2.symm, fun h1 => ?_⟩
  rw [e1, if_neg (by simp [h1])]

theorem claim_C8_copy_file_binary_fallback_witness :
    FS.isDir ⟨[(["s"], ⟨.binary [255], 7⟩)], []⟩ ["s"] = false
    ∧ FS.lookupFile ⟨[(["s"], ⟨.binary [255], 7⟩)], []⟩ ["s"] =
        some ⟨.binary [255], 7⟩
    ∧ (copy_file ⟨[(["s"], ⟨.binary [255], 7⟩)], []⟩ ["s"] ["d"] false true [] =
        copy_file ⟨[(["s"], ⟨.binary [255], 7⟩)], []⟩ ["s"] ["d"] false false [])
    ∧ copy_file ⟨[(["s"], ⟨.binary [255], 7⟩)], []⟩ ["s"] ["d"] false true [] =
        .ok (FS.writeFile ⟨[(["s"], ⟨.binary [255], 7⟩)], []⟩ ["d"]
          ⟨.binary [255], 7⟩, [.copied ["d"]]) :=
  ⟨by decide, by decide,
   (claim_C8_copy_file_binary_fallback ⟨[(["s"], ⟨.binary [255], 7⟩)], []⟩
     ["s"] ["d"] false [] [255] 7 (by decide) (by decide)).1,
   (claim_C8_copy_file_binary_fallback ⟨[(["s"], ⟨.binary [255], 7⟩)], []⟩
     ["s"] ["d"] false [] [255] 7 (by decide) (by decide)).2 (by decide)⟩

/-- **C6**: executing a plan whose head item has a missing source skips the
item with an `optional-missing` notice and continues with the rest when the
item is optional, and fails immediately with a missing-source error (and no
filesystem change) when it is not. -/
theorem claim_C6_apply_plan_missing_source (fs : FS) (rest : List CopyItem)
    (force : Bool) (exts : List String) (vars : List (List Char × List Char))
    (src dst : FilePath') (mode : String) (h : fs.existsPath src = false) :
    (apply_plan force exts vars fs
        ({ src := src, dst := dst, mode := mode, optional := true } :: rest) =
      (apply_plan force exts vars fs rest).map
        (fun r => (r.1, .optionalMissing src :: r.2)))
    ∧ (apply_plan force exts vars fs
        ({ src := src, dst := dst, mode := mode, optional := false } :: rest) =
      .error (if mode = "merge_gitignore" then .missingSnippet src
        else .missingFile src)) := by
  have hd : fs.isDir src = false := by
    rw [FS.existsPath] at h
    exact (Bool.or_eq_false_iff.mp h).1
  constructor
  · rw [apply_plan]
    by_cases hm : mode = "merge_gitignore"
    · simp [hm, h]
    · simp [hm, h, hd]
  · rw [apply_plan]
    by_cases hm : mode = "merge_gitignore"
    · simp [hm, h]
    · simp [hm, h, hd]

theorem claim_C6_apply_plan_missing_source_witness :
    FS.existsPath ⟨[], []⟩ ["s"] = false
    ∧ (apply_plan false [] [] ⟨[], []⟩ [⟨["s"], ["d"], "copy", true⟩] =
        (apply_plan false [] [] ⟨[], []⟩ []).map
          (fun r => (r.1, .optionalMissing ["s"] :: r.2)))
    ∧ apply_plan false [] [] ⟨[], []⟩ [⟨["s"], ["d"], "copy", false⟩] =
        .error (if "copy" = "merge_gitignore" then .missingSnippet ["s"]
          else .missingFile ["s"]) :=
  ⟨by decide,
   (claim_C6_apply_plan_missing_source ⟨[], []⟩ [] false [] [] ["s"] ["d"]
     "copy" (by decide)).1,
   (claim_C6_apply_plan_missing_source ⟨[], []⟩ [] false [] [] ["s"] ["d"]
     "copy" (by decide)).2⟩

/-! ### Renderer claims -/

theorem pyIsSpace_not_nameChar {c : Char} (h : pyIsSpace c = true) :
    isNameChar c = false := by
  rw [pyIsSpace] at h
  simp only [Bool.or_eq_true, decide_eq_true_eq] at h
  rcases h with ((((h | h) | h) | h) | h) | h <;> subst h <;> decide

theorem nameChar_not_space {c : Char} (h : isNameChar c = true) :
    pyIsSpace c = false := by
  cases hs : pyIsSpace c with
  | false => rfl
  | true => rw [pyIsSpace_not_nameChar hs] at h; exact Bool.noConfusion h

/-- The `PLACEHOLDER` regex matches at the start of
`"{{" ++ ws1 ++ name ++ ws2 ++ "}}" ++ rest` and captures exactly `name`. -/
theorem matchPlaceholder_placeholder (ws1 name ws2 rest : List Char)
    (hw1 : ∀ c ∈ ws1, pyIsSpace c = true) (hnn : name ≠ [])
    (hn : ∀ c ∈ name, isNameChar c = true)
    (hw2 : ∀ c ∈ ws2, pyIsSpace c = true) :
    matchPlaceholder ('{' :: '{' :: (ws1 ++ name ++ ws2 ++ '}' :: '}' :: rest)) =
      some (name, '{' :: '{' :: (ws1 ++ name ++ ws2 ++ ['}', '}']), rest) := by
  obtain ⟨n0, ns, rfl⟩ := List.exists_cons_of_ne_nil hnn
  have hsp0 : pyIsSpace n0 = false := nameChar_not_space (hn n0 (by simp))
  have hbr_sp : pyIsSpace '}' = false := by decide
  have hbr_nc : isNameChar '}' = false := by decide
  have hr0 : ws1 ++ (n0 :: ns) ++ ws2 ++ '}' :: '}' :: rest =
      ws1 ++ ((n0 :: ns) ++ (ws2 ++ ('}' :: '}' :: rest))) := by simp
  have htail_nc : (ws2 ++ ('}' :: '}' :: rest)).takeWhile isNameChar = [] := by
    cases ws2 with
    | nil => simp [hbr_nc]
    | cons w ws' =>
      have hw : isNameChar w = false :=
        pyIsSpace_not_nameChar (hw2 w (by simp))
      simp [hw]
  have htail_nc' : (ws2 ++ ('}' :: '}' :: rest)).dropWhile isNameChar =
      ws2 ++ ('}' :: '}' :: rest) := by
    cases ws2 with
    | nil => simp [hbr_nc]
    | cons w ws' =>
      have hw : isNameChar w = false :=
        pyIsSpace_not_nameChar (hw2 w (by simp))
      simp [hw]
  have ht1 : (ws1 ++ ((n0 :: ns) ++ (ws2 ++ ('}' :: '}' :: rest)))).takeWhile
      pyIsSpace = ws1 := by
    rw [List.takeWhile_append_of_pos hw1]
    simp [hsp0]
  have hd1 : (ws1 ++ ((n0 :: ns) ++ (ws2 ++ ('}' :: '}' :: rest)))).dropWhile
      pyIsSpace = (n0 :: ns) ++ (ws2 ++ ('}' :: '}' :: rest)) := by
    rw [List.dropWhile_append_of_pos hw1]
    simp [hsp0]
  have ht2 : ((n0 :: ns) ++ (ws2 ++ ('}' :: '}' :: rest))).takeWhile
      isNameChar = n0 :: ns := by
    rw [List.takeWhile_append_of_pos hn, htail_nc, List.append_nil]
  have hd2 : ((n0 :: ns) ++ (ws2 ++ ('}' :: '}' :: rest))).dropWhile
      isNameChar = ws2 ++ ('}' :: '}' :: rest) := by
    rw [List.dropWhile_append_of_pos hn, htail_nc']
  have ht3 : (ws2 ++ ('}' :: '}' :: rest)).takeWhile pyIsSpace = ws2 := by
    rw [List.takeWhile_append_of_pos hw2]
    simp [hbr_sp]
  have hd3 : (ws2 ++ ('}' :: '}' :: rest)).dropWhile pyIsSpace =
      '}' :: '}' :: rest := by
    rw [List.dropWhile_append_of_pos hw2]
    simp [hbr_sp]
  rw [hr0, matchPlaceholder]
  rw [if_pos ⟨rfl, rfl⟩]
  simp only [ht1, hd1, ht2, hd2, ht3, hd3]
  simp

theorem matchPlaceholder_cons_ne {c : Char} (s : List Char) (hc : c ≠ '{') :
    matchPlaceholder (c :: s) = none := by
  cases s with
  | nil => rfl
  | cons c2 s' =>
    rw [matchPlaceholder]
    rw [if_neg (fun hand => hc hand.1)]

theorem render_text_nil (vars : List (List Char × List Char)) :
    render_text vars [] = [] := by
  rw [render_text]
  split
  · rename_i h
    exact absurd h (by simp [matchPlaceholder])
  · rfl

theorem render_text_no_match (vars : List (List Char × List Char))
    (c : Char) (cs : List Char) (hm : matchPlaceholder (c :: cs) = none) :
    render_text vars (c :: cs) = c :: render_text vars cs := by
  rw [render_text]
  split
  · rename_i h
    rw [hm] at h
    exact Option.noConfusion h
  · rfl

theorem render_text_match (vars : List (List Char × List Char))
    {s name whole rest : List Char}
    (hm : matchPlaceholder s = some (name, whole, rest)) :
    render_text vars s = ((vars.lookup name).getD whole) ++
      render_text vars rest := by
  rw [render_text]
  split
  · rename_i h
    rw [hm] at h
    simp only [Option.some.injEq, Prod.mk.injEq] at h
    obtain ⟨rfl, rfl, rfl⟩ := h
    rfl
  · rename_i h
    rw [hm] at h
    exact Option.noConfusion h

/-- **C4**: `render_text` replaces every occurrence of a placeholder of the
exact form `{{ NAME }}` (uppercase letters, digits, underscores; optional
whitespace inside the braces) by the mapping's value for `NAME`, leaves a
placeholder whose `NAME` is unmapped byte-identical, and passes all other
text through unchanged, never failing: the empty text renders to itself, a
position where the pattern does not match emits its character unchanged and
the scan continues, any character other than `'{'` never starts a match, a
mapped placeholder is replaced by its value, and an unmapped one is kept
verbatim. -/
theorem claim_C4_render_text_placeholders
    (vars : List (List Char × List Char)) :
    (render_text vars [] = [])
    ∧ (∀ (c : Char) (cs : List Char), matchPlaceholder (c :: cs) = none →
        render_text vars (c :: cs) = c :: render_text vars cs)
    ∧ (∀ (c : Char) (cs : List Char), c ≠ '{' →
        render_text vars (c :: cs) = c :: render_text vars cs)
    ∧ (∀ (ws1 name ws2 rest v : List Char),
        (∀ c ∈ ws1, pyIsSpace c = true) → name ≠ [] →
        (∀ c ∈ name, isNameChar c = true) →
        (∀ c ∈ ws2, pyIsSpace c = true) →
        vars.lookup name = some v →
        render_text vars
            ('{' :: '{' :: (ws1 ++ name ++ ws2 ++ '}' :: '}' :: rest)) =
          v ++ render_text vars rest)
    ∧ (∀ (ws1 name ws2 rest : List Char),
        (∀ c ∈ ws1, pyIsSpace c = true) → name ≠ [] →
        (∀ c ∈ name, isNameChar c = true) →
        (∀ c ∈ ws2, pyIsSpace c = true) →
        vars.lookup name = none →
        render_text vars
            ('{' :: '{' :: (ws1 ++ name ++ ws2 ++ '}' :: '}' :: rest)) =
          ('{' :: '{' :: (ws1 ++ name ++ ws2 ++ ['}', '}'])) ++
            render_text vars rest) := by
  refine ⟨render_text_nil vars, render_text_no_match vars, ?_, ?_, ?_⟩
  · intro c cs hc
    exact render_text_no_match vars c cs (matchPlaceholder_cons_ne cs hc)
  · intro ws1 name ws2 rest v hw1 hnn hn hw2 hv
    rw [render_text_match vars
      (matchPlaceholder_placeholder ws1 name ws2 rest hw1 hnn hn hw2), hv]
    rfl
  · intro ws1 name ws2 rest hw1 hnn hn hw2 hv
    rw [render_text_match vars
      (matchPlaceholder_placeholder ws1 name ws2 rest hw1 hnn hn hw2), hv]
    rfl

theorem claim_C4_render_text_placeholders_witness :
    (render_text [(['X'], ['v'])] ['a', '{', '{', 'X', '}', '}', 'b'] =
      ['a', 'v', 'b'])
    ∧ render_text [] ['{', '{', 'Y', '}', '}'] =
      ['{', '{', 'Y', '}', '}'] := by
  constructor
  · have h1 := (claim_C4_render_text_placeholders [(['X'], ['v'])]).2.2.1
      'a' ['{', '{', 'X', '}', '}', 'b'] (by decide)
    have h2 := (claim_C4_render_text_placeholders [(['X'], ['v'])]).2.2.2.1
      [] ['X'] [] ['b'] ['v'] (by simp) (by simp) (by simp [isNameChar])
      (by simp) (by rfl)
    have h3 := (claim_C4_render_text_placeholders [(['X'], ['v'])]).2.2.1
      'b' [] (by decide)
    have h4 := (claim_C4_render_text_placeholders [(['X'], ['v'])]).1
    simp only [List.nil_append, List.append_nil, List.cons_append] at h2
    rw [h1, h2, h3, h4]
  · have h2 := (claim_C4_render_text_placeholders []).2.2.2.2
      [] ['Y'] [] [] (by simp) (by simp) (by simp [isNameChar]) (by simp) rfl
    have h4 := (claim_C4_render_text_placeholders []).1
    simp only [List.nil_append, List.append_nil, List.cons_append] at h2
    rw [h2, h4]

end AgentKit
